import Mathlib

/-!
Verification of the path- and name-validation core of a Node/Express file
server (`server.js`).  Strings are modelled as `List Char` (JavaScript
strings restricted to the code points the claims exercise); the pure string
functions of the source are translated directly, and the filesystem is
modelled as explicit oracles (`stat`, `exists`) passed to the stateful
flows.  POSIX `path.resolve` / `path.join` / `path.extname` from Node's
standard library are embedded following their documented algorithms.
-/

namespace FileServer

/-! ## Character predicates of the sanitizers (server.js lines 70-82) -/

/-- Characters removed by `sanitizeFilename`'s first regex pass:
the class `[<>:"/\\|?*\x00-\x1f]`. -/
def badFileChar (c : Char) : Bool :=
  c == '<' || c == '>' || c == ':' || c == '\"' || c == '/' || c == '\\' ||
  c == '|' || c == '?' || c == '*' || c.toNat ≤ 0x1f

/-- Characters removed by `sanitizePath`'s first regex pass:
the class `[<>:"|?*\x00-\x1f]` (forward and back slashes are kept). -/
def badPathChar (c : Char) : Bool :=
  c == '<' || c == '>' || c == ':' || c == '\"' ||
  c == '|' || c == '?' || c == '*' || c.toNat ≤ 0x1f

/-- A single left-to-right global-replace pass of `/\.\./g` with the empty
string, as performed by JavaScript `String.replace`: non-overlapping
matches are removed scanning left to right, the scan resuming after each
match. -/
def removeDotDot : List Char → List Char
  | [] => []
  | [c] => [c]
  | c :: d :: rest =>
    if c == '.' && d == '.' then removeDotDot rest
    else c :: removeDotDot (d :: rest)

/-- Test whether a string contains two adjacent dots (a `..` substring). -/
def hasDotDot : List Char → Bool
  | [] => false
  | [_] => false
  | c :: d :: rest => (c == '.' && d == '.') || hasDotDot (d :: rest)

/-- The backslash-to-forward-slash normalization `replace(/\\/g, "/")`. -/
def slashify (c : Char) : Char := if c == '\\' then '/' else c

/-- Embedding of `sanitizeFilename` (server.js lines 70-74): strip the
dangerous characters, then remove every `..` match in one pass. -/
def sanitizeFilename (l : List Char) : List Char :=
  removeDotDot (l.filter (fun c => !badFileChar c))

/-- Embedding of `sanitizePath` (server.js lines 76-82): strip the
dangerous characters (slashes kept), remove every `..` match in one pass,
then turn backslashes into forward slashes. -/
def sanitizePath (l : List Char) : List Char :=
  (removeDotDot (l.filter (fun c => !badPathChar c))).map slashify

/-! ## The filename validator (server.js lines 84-91) -/

/-- The JavaScript `\s` character class (ECMAScript WhiteSpace and
LineTerminator code points), as matched by the validator's regex. -/
def isJsSpace (c : Char) : Bool :=
  c == ' ' || c == '\t' || c == '\n' || c == '\x0b' || c == '\x0c' ||
  c == '\r' || c == '\u00A0' || c == '\u1680' ||
  ('\u2000' ≤ c && c ≤ '\u200A') || c == '\u2028' || c == '\u2029' ||
  c == '\u202F' || c == '\u205F' || c == '\u3000' || c == '\uFEFF'

/-- One character of the validator's class `[a-zA-Z0-9._\-\s\/]`. -/
def validCharJS (c : Char) : Bool :=
  ('a' ≤ c && c ≤ 'z') || ('A' ≤ c && c ≤ 'Z') || ('0' ≤ c && c ≤ '9') ||
  c == '.' || c == '_' || c == '-' || isJsSpace c || c == '/'

/-- Embedding of `isValidFilename` (server.js lines 84-91):
`/^[a-zA-Z0-9._\-\s\/]+$/.test(filename) && filename.length <= 500 &&
filename.length > 0`. -/
def isValidFilename (l : List Char) : Bool :=
  l.all validCharJS && decide (l.length ≤ 500) && decide (0 < l.length)

/-! ## The extension policy (server.js lines 93-129) and Node `path.extname` -/

/-- The `allowedExtensions` array of `isAllowedFileType`. -/
def allowedExtensions : List (List Char) :=
  [".pdf".toList, ".txt".toList, ".doc".toList, ".docx".toList,
   ".xls".toList, ".xlsx".toList, ".ppt".toList, ".pptx".toList,
   ".jpg".toList, ".jpeg".toList, ".png".toList, ".gif".toList,
   ".bmp".toList, ".webp".toList, ".mp4".toList, ".mp3".toList,
   ".wav".toList, ".avi".toList, ".mov".toList, ".zip".toList,
   ".rar".toList, ".7z".toList, ".tar".toList, ".gz".toList,
   ".json".toList, ".xml".toList, ".csv".toList, ".html".toList,
   ".css".toList, ".js".toList]

/-- The final path component used by Node `path.posix.extname`: trailing
slashes are ignored, then the part after the last remaining slash is
taken. -/
def basenameForExt (l : List Char) : List Char :=
  ((l.reverse.dropWhile (fun c => c == '/')).takeWhile (fun c => !(c == '/'))).reverse

/-- Embedding of Node `path.posix.extname`: the slice of the final path
component from its last dot to its end, except that there is no extension
when the component has no dot, when its only leading character is that
dot, or when the component is exactly `..`. -/
def extname (l : List Char) : List Char :=
  let b := basenameForExt l
  let afterRev := b.reverse.takeWhile (fun c => !(c == '.'))
  if afterRev.length == b.length then []
  else if b.length == afterRev.length + 1 then []
  else if b == ['.', '.'] then []
  else b.drop (b.length - afterRev.length - 1)

/-- Embedding of `isAllowedFileType` (server.js lines 93-129):
`allowedExtensions.includes(path.extname(filename).toLowerCase())`. -/
def isAllowedFileType (l : List Char) : Bool :=
  allowedExtensions.contains ((extname l).map Char.toLower)

/-! ## POSIX path normalization for `path.resolve` and `path.join` -/

/-- Split a string at every `/`, keeping empty pieces, as POSIX path
normalization does before processing segments. -/
def splitOnSlash : List Char → List (List Char)
  | [] => [[]]
  | c :: rest =>
    if c == '/' then [] :: splitOnSlash rest
    else
      match splitOnSlash rest with
      | s :: ss => (c :: s) :: ss
      | [] => [[c]]

/-- Reassemble split segments with `/` separators. -/
def joinSegs : List (List Char) → List Char
  | [] => []
  | [s] => s
  | s :: rest => s ++ '/' :: joinSegs rest

/-- Normalization of the segments of an absolute path: empty and `.`
segments are dropped, `..` pops the previous segment (and is dropped at
the root), every other segment is kept, left to right. -/
def normAbs : List (List Char) → List (List Char) → List (List Char)
  | stack, [] => stack
  | stack, seg :: rest =>
    if seg.isEmpty || seg == ['.'] then normAbs stack rest
    else if seg == ['.', '.'] then normAbs stack.dropLast rest
    else normAbs (stack ++ [seg]) rest

/-- Render normalized segments of an absolute path back to a string. -/
def renderAbs (segs : List (List Char)) : List Char :=
  '/' :: joinSegs segs

/-- Does the string end with a forward slash? -/
def endsWithSlash (l : List Char) : Bool := l.getLast? == some '/'

/-- Embedding of Node `path.posix.resolve(base, p)` for an absolute
`base`: an absolute `p` is normalized on its own, otherwise `base`, a
separator and `p` are concatenated and normalized. -/
def resolvePosix (base p : List Char) : List Char :=
  if p.head? == some '/' then renderAbs (normAbs [] (splitOnSlash p))
  else renderAbs (normAbs [] (splitOnSlash (base ++ '/' :: p)))

/-- The concatenation step of Node `path.posix.join(root, s)` for an
absolute `root`: the non-empty parts joined by a single `/`. -/
def joinedRaw (root s : List Char) : List Char :=
  if s.isEmpty then root else root ++ '/' :: s

/-- Embedding of Node `path.posix.join(root, s)` for an absolute `root`:
the non-empty parts are concatenated with `/` and normalized; a trailing
slash of the concatenation survives normalization unless the result is the
bare root `/`. -/
def pathJoin (root s : List Char) : List Char :=
  if endsWithSlash (joinedRaw root s) &&
      !(normAbs [] (splitOnSlash (joinedRaw root s))).isEmpty
  then renderAbs (normAbs [] (splitOnSlash (joinedRaw root s))) ++ ['/']
  else renderAbs (normAbs [] (splitOnSlash (joinedRaw root s)))

/-! ## The confinement check (server.js lines 131-135) -/

/-- Embedding of `isSecurePath`:
`path.resolve(baseDir, requestedPath).startsWith(path.resolve(baseDir))`.
Note the check is a bare string-prefix test with no separator guard. -/
def isSecurePath (requestedPath baseDir : List Char) : Bool :=
  (renderAbs (normAbs [] (splitOnSlash baseDir))).isPrefixOf
    (resolvePosix baseDir requestedPath)

/-- The guard the listing and upload-destination flows place around the
confinement check: `if (sanitizedPath && !isSecurePath(...))` rejects; an
empty sanitized path skips the check. -/
def traversalGuardRejects (sanitized baseDir : List Char) : Bool :=
  !sanitized.isEmpty && !isSecurePath sanitized baseDir

/-- The confinement property the specification demands of a resolved
path: it equals the root, or extends the root by a path separator. -/
def insideRoot (root p : List Char) : Bool :=
  p == root || (root ++ ['/']).isPrefixOf p

/-! ## Upload naming (server.js lines 157-186, `storage.filename`) -/

/-- The stem used by the collision loop:
`sanitizedName.slice(0, -ext.length)`.  JavaScript `slice(0, -0)` is
`slice(0, 0)`, so a name with an empty extension yields an empty stem. -/
def stemOf (name : List Char) : List Char :=
  let ext := extname name
  if ext.length == 0 then [] else name.take (name.length - ext.length)

/-- The n-th candidate name tried by the collision loop: the client name
itself for `n = 0`, and `{stem}_{n}{ext}` afterwards. -/
def candidateName (name : List Char) : Nat → List Char
  | 0 => name
  | Nat.succ n =>
    stemOf name ++ '_' :: (Nat.toDigits 10 (Nat.succ n) ++ extname name)

/-- The `while (fs.existsSync(path.join(fullDir, finalName)))` loop of
`storage.filename`, with the filesystem as an existence oracle `ex` over
full paths and explicit fuel standing in for the unbounded JS loop. -/
def reserveLoop (ex : List Char → Bool) (fullDir name : List Char) :
    Nat → List Char → Nat → List Char
  | 0, finalName, _ => finalName
  | Nat.succ fuel, finalName, counter =>
    if ex (pathJoin fullDir finalName) then
      reserveLoop ex fullDir name fuel
        (stemOf name ++ '_' :: (Nat.toDigits 10 counter ++ extname name))
        (counter + 1)
    else finalName

/-- Collision-free name reservation of `storage.filename`: start from the
sanitized client name with `counter = 1`. -/
def reserveFilename (ex : List Char → Bool) (fullDir name : List Char)
    (fuel : Nat) : List Char :=
  reserveLoop ex fullDir name fuel name 1

/-! ## The multer upload pipeline (server.js lines 138-207) -/

/-- Failure modes of the upload pipeline. -/
inductive UploadErr where
  | fileTypeNotAllowed
  | invalidUploadPath
  | invalidFileName
deriving DecidableEq

/-- The name checks shared by `fileFilter` and `storage.filename`:
`!sanitizedName || !isValidFilename(sanitizedName) ||
!isAllowedFileType(sanitizedName)`. -/
def nameChecksFail (sn : List Char) : Bool :=
  sn.isEmpty || !isValidFilename sn || !isAllowedFileType sn

/-- Result of the upload pipeline together with the `fs.mkdirSync` calls
it performed. -/
structure UploadOutcome where
  result : Except UploadErr (List Char × List Char)
  createdDirs : List (List Char)

/-- The multer pipeline for a single file: `fileFilter` runs first (multer
consults it before handing the file to the storage engine), then
`storage.destination` (path check, then `mkdirSync` when the target is
missing), then `storage.filename` (name re-check and collision loop).
The filesystem is an existence oracle `ex` over full paths. -/
def uploadPipeline (ex : List Char → Bool)
    (uploadsDir originalname uploadPath : List Char) (fuel : Nat) :
    UploadOutcome :=
  let sn := sanitizeFilename originalname
  if nameChecksFail sn then
    ⟨Except.error UploadErr.fileTypeNotAllowed, []⟩
  else
    let sp := sanitizePath uploadPath
    let targetDir := pathJoin uploadsDir sp
    if !sp.isEmpty && !isSecurePath sp uploadsDir then
      ⟨Except.error UploadErr.invalidUploadPath, []⟩
    else
      let created := if ex targetDir then [] else [targetDir]
      if nameChecksFail sn then
        ⟨Except.error UploadErr.invalidFileName, created⟩
      else
        ⟨Except.ok (targetDir, reserveFilename ex targetDir sn fuel), created⟩

/-! ## Directory listing (server.js lines 395-496) -/

/-- Filesystem metadata returned by a stat call. -/
structure FsStats where
  isDir : Bool
  isFile : Bool
  size : Nat
deriving DecidableEq

/-- An entry of the first (`validItems`) pass of the listing. -/
structure ListItem where
  name : List Char
  isDirectory : Bool
  rpath : List Char
deriving DecidableEq

/-- A fully detailed listing entry built by the promise pass. -/
structure ItemData where
  name : List Char
  rpath : List Char
  isDirectory : Bool
  size : Option Nat
deriving DecidableEq

/-- The relative path attached to a child:
`sanitizedPath ? sanitizedPath + "/" + item : item`. -/
def relPathOf (sanitizedPath item : List Char) : List Char :=
  if sanitizedPath.isEmpty then item else sanitizedPath ++ '/' :: item

/-- Classification of one child after a successful `fs.statSync`:
directories are always listed, files only when their sanitized name passes
the validator and the extension policy, anything else is skipped. -/
def classifyOne (sanitizedPath item : List Char) (st : FsStats) :
    List ListItem :=
  if st.isDir then [⟨item, true, relPathOf sanitizedPath item⟩]
  else if st.isFile then
    let s := sanitizeFilename item
    if !s.isEmpty && isValidFilename s && isAllowedFileType s then
      [⟨item, false, relPathOf sanitizedPath item⟩]
    else []
  else []

/-- The `files.forEach` pass of `handleDirectoryListing`: every child is
stat-ed with the synchronous `fs.statSync`, whose failure (`none` from the
oracle) throws and aborts the whole pass. -/
def statPhase (stat1 : List Char → Option FsStats)
    (currentDir sanitizedPath : List Char) :
    List (List Char) → Option (List ListItem)
  | [] => some []
  | item :: rest =>
    match stat1 (pathJoin currentDir item) with
    | none => none
    | some st =>
      match statPhase stat1 currentDir sanitizedPath rest with
      | none => none
      | some items => some (classifyOne sanitizedPath item st ++ items)

/-- The promise pass of `handleDirectoryListing`: directories are passed
through, files are stat-ed again with the asynchronous `fs.stat`, a
failing or non-file stat resolves `null` and is filtered out. -/
def detailPhase (stat2 : List Char → Option FsStats)
    (currentDir : List Char) (items : List ListItem) : List ItemData :=
  items.filterMap fun it =>
    if it.isDirectory then some ⟨it.name, it.rpath, true, none⟩
    else
      match stat2 (pathJoin currentDir it.name) with
      | none => none
      | some st =>
        if st.isFile then some ⟨it.name, it.rpath, false, some st.size⟩
        else none

/-- The full listing body after `fs.readdir` has produced `files`:
the `statSync` pass followed by the promise pass.  The two stat oracles
expose the two distinct moments the filesystem is consulted. -/
def listDirectory (stat1 stat2 : List Char → Option FsStats)
    (currentDir sanitizedPath : List Char) (files : List (List Char)) :
    Option (List ItemData) :=
  match statPhase stat1 currentDir sanitizedPath files with
  | none => none
  | some items => some (detailPhase stat2 currentDir items)

/-! ## Specification-side definitions, used to state the claims -/

/-- Modelled from the spec: the character set the claim attributes to the
validator, `[A-Za-z0-9._- /]` with a literal space only. -/
def claimValidChar (c : Char) : Bool :=
  ('a' ≤ c && c ≤ 'z') || ('A' ≤ c && c ≤ 'Z') || ('0' ≤ c && c ≤ '9') ||
  c == '.' || c == '_' || c == '-' || c == ' ' || c == '/'

/-- Modelled from the spec: the extension test the claim attributes to
the policy — the lowercased substring after the last dot of the whole
name, looked up (with its dot) in the allowed set; no dot, no extension. -/
def claimExtAllowed (l : List Char) : Bool :=
  let afterRev := l.reverse.takeWhile (fun c => !(c == '.'))
  if afterRev.length == l.length then false
  else allowedExtensions.contains ('.' :: (afterRev.reverse.map Char.toLower))

/-- A well-formed root path segment: non-empty and not a `.` or `..`
navigation segment. -/
def cleanSeg (seg : List Char) : Bool :=
  !seg.isEmpty && !(seg == ['.']) && !(seg == ['.', '.'])

/-- All segments of a root path are well formed. -/
def cleanSegs (segs : List (List Char)) : Bool := segs.all cleanSeg

/-! ## Lemmas about the single-pass `..` removal -/

theorem head_removeDotDot_cons (d : Char) (t : List Char) (hd : ¬ d = '.') :
    (removeDotDot (d :: t)).head? = some d := by
  cases t with
  | nil => simp [removeDotDot]
  | cons x xs =>
    simp only [removeDotDot]
    rw [if_neg]
    · simp
    · simp [hd]

/-- A single global-replace pass of `..` leaves no `..` behind: after an
emitted dot the next emitted character is never a dot. -/
theorem hasDotDot_removeDotDot (l : List Char) :
    hasDotDot (removeDotDot l) = false := by
  induction l using removeDotDot.induct with
  | case1 => simp [removeDotDot, hasDotDot]
  | case2 c => simp [removeDotDot, hasDotDot]
  | case3 c d rest h ih =>
    simp only [removeDotDot, h, if_true]
    exact ih
  | case4 c d rest h ih =>
    simp only [removeDotDot, h, if_false]
    rcases hr : removeDotDot (d :: rest) with _ | ⟨e, t⟩
    · simp [hasDotDot]
    · have hne : hasDotDot (e :: t) = false := hr ▸ ih
      simp only [hasDotDot, hne, Bool.or_false]
      by_cases hc : c = '.'
      · have hd : ¬ d = '.' := by
          intro hdd
          simp [hc, hdd] at h
        have hh := head_removeDotDot_cons d rest hd
        rw [hr] at hh
        simp only [List.head?] at hh
        have he : e = d := by simpa using hh
        simp [he, hd]
      · simp [hc]

theorem removeDotDot_of_not_hasDotDot (l : List Char) :
    hasDotDot l = false → removeDotDot l = l := by
  induction l using removeDotDot.induct with
  | case1 => intro _; rfl
  | case2 c => intro _; rfl
  | case3 c d rest hm ih =>
    intro h
    simp [hasDotDot, hm] at h
  | case4 c d rest hm ih =>
    intro h
    simp only [hasDotDot, hm, Bool.false_or] at h
    simp [removeDotDot, hm, ih h]

theorem mem_removeDotDot (c : Char) (l : List Char) :
    c ∈ removeDotDot l → c ∈ l := by
  induction l using removeDotDot.induct with
  | case1 => simp [removeDotDot]
  | case2 d => simp [removeDotDot]
  | case3 x d rest hm ih =>
    intro h
    simp only [removeDotDot, hm, if_true] at h
    simp [ih h]
  | case4 x d rest hm ih =>
    intro h
    simp only [removeDotDot, hm, if_false] at h
    cases h with
    | head => simp
    | tail _ h => exact List.mem_cons_of_mem _ (ih h)


theorem slashify_eq_dot (c : Char) : (slashify c = '.') ↔ (c = '.') := by
  by_cases h : c = '\\'
  · subst h
    decide
  · simp [slashify, h]

theorem slashify_beq_dot (c : Char) : (slashify c == '.') = (c == '.') := by
  by_cases h : c = '.'
  · subst h
    decide
  · have hn : ¬ slashify c = '.' := fun hh => h ((slashify_eq_dot c).mp hh)
    simp [h, hn]

theorem hasDotDot_map_slashify (l : List Char) :
    hasDotDot (l.map slashify) = hasDotDot l := by
  induction l using hasDotDot.induct with
  | case1 => rfl
  | case2 c => rfl
  | case3 c d rest ih =>
    simp only [List.map_cons, hasDotDot]
    rw [slashify_beq_dot, slashify_beq_dot]
    simp only [List.map_cons] at ih
    rw [ih]

theorem map_slashify_id (l : List Char) (h : ∀ c ∈ l, ¬ c = '\\') :
    l.map slashify = l := by
  induction l with
  | nil => rfl
  | cons c rest ih =>
    simp only [List.map_cons, slashify]
    rw [if_neg (by simp [h c (by simp)]), ih (fun x hx => h x (by simp [hx]))]

theorem filter_all_id (p : Char → Bool) (l : List Char)
    (h : ∀ c ∈ l, p c = true) : l.filter p = l :=
  List.filter_eq_self.mpr h

theorem sanitizeFilename_chars (c : Char) (l : List Char)
    (h : c ∈ sanitizeFilename l) : badFileChar c = false := by
  unfold sanitizeFilename at h
  have h1 := mem_removeDotDot c _ h
  have h2 := List.of_mem_filter h1
  simpa using h2

theorem sanitizePath_chars (c : Char) (l : List Char)
    (h : c ∈ sanitizePath l) : badPathChar c = false ∧ ¬ c = '\\' := by
  unfold sanitizePath at h
  obtain ⟨d, hd, rfl⟩ := List.mem_map.mp h
  have hdf := List.of_mem_filter (mem_removeDotDot d _ hd)
  have hdp : badPathChar d = false := by simpa using hdf
  constructor
  · by_cases hb : d = '\\'
    · subst hb
      decide
    · simpa [slashify, hb] using hdp
  · by_cases hb : d = '\\'
    · subst hb
      decide
    · simp only [slashify, if_neg (by simp [hb] : ¬ (d == '\\') = true)]
      exact hb

theorem hasDotDot_sanitizePath (l : List Char) :
    hasDotDot (sanitizePath l) = false := by
  unfold sanitizePath
  rw [hasDotDot_map_slashify]
  exact hasDotDot_removeDotDot _

/-- Claim C7: both sanitizers are idempotent even though the dot-dot
removal is a single pass. -/
theorem C7_sanitize_idempotent (s : List Char) :
    sanitizeFilename (sanitizeFilename s) = sanitizeFilename s ∧
    sanitizePath (sanitizePath s) = sanitizePath s := by
  constructor
  · show removeDotDot
        (List.filter (fun c => !badFileChar c) (sanitizeFilename s)) =
      sanitizeFilename s
    rw [filter_all_id _ _ (fun c hc => by simp [sanitizeFilename_chars c s hc])]
    exact removeDotDot_of_not_hasDotDot _ (hasDotDot_removeDotDot _)
  · show (removeDotDot
        (List.filter (fun c => !badPathChar c) (sanitizePath s))).map slashify =
      sanitizePath s
    rw [filter_all_id _ _ (fun c hc => by simp [(sanitizePath_chars c s hc).1]),
        removeDotDot_of_not_hasDotDot _ (hasDotDot_sanitizePath s)]
    exact map_slashify_id _ (fun c hc => (sanitizePath_chars c s hc).2)



/-- Claim C9: the validator accepts strings containing a literal dot-dot. -/
theorem C9_validator_accepts_dotdot :
    isValidFilename ("a..b".toList) = true ∧
    isValidFilename ("../x".toList) = true ∧
    hasDotDot ("a..b".toList) = true ∧
    hasDotDot ("../x".toList) = true := by
  decide

/-- Claim C5 counterexample: a tab character is outside `[A-Za-z0-9._- /]`
yet the validator accepts it, because the regex class contains `\s`. -/
theorem C5_counterexample :
    isValidFilename ("a\tb".toList) = true ∧
    ("a\tb".toList).all claimValidChar = false := by
  decide

/-- Claim C5 amended: the validator accepts exactly the non-empty strings
of at most 500 characters over letters, digits, dot, underscore, hyphen,
slash, and any JavaScript whitespace character. -/
theorem C5_amended_validator_charset (l : List Char) :
    isValidFilename l = true ↔
      ((∀ c ∈ l, ('a' ≤ c ∧ c ≤ 'z') ∨ ('A' ≤ c ∧ c ≤ 'Z') ∨
        ('0' ≤ c ∧ c ≤ '9') ∨ c = '.' ∨ c = '_' ∨ c = '-' ∨
        isJsSpace c = true ∨ c = '/') ∧ l ≠ [] ∧ l.length ≤ 500) := by
  unfold isValidFilename validCharJS
  simp only [Bool.and_eq_true, List.all_eq_true, Bool.or_eq_true,
    decide_eq_true_eq, beq_iff_eq]
  constructor
  · rintro ⟨⟨hall, h500⟩, hpos⟩
    refine ⟨fun c hc => ?_, List.length_pos.mp hpos, h500⟩
    have := hall c hc
    tauto
  · rintro ⟨hall, hne, h500⟩
    refine ⟨⟨fun c hc => ?_, h500⟩, List.length_pos.mpr hne⟩
    have := hall c hc
    tauto

/-- Claim C2: the confinement check is a bare string-prefix test; it
accepts the sibling directory `/a/publicX` of the root `/a/public`,
which the specification requires it to reject. -/
theorem C2_sibling_accepted :
    isSecurePath ("../publicX".toList) ("/a/public".toList) = true ∧
    insideRoot ("/a/public".toList)
      (resolvePosix ("/a/public".toList) ("../publicX".toList)) = false := by
  decide

/-- Claim C6 counterexample: for the dotfile name `.jpg` the substring
after the last dot is the allowed extension `jpg`, yet the policy rejects
the name, because Node `extname` gives a dotfile no extension. -/
theorem C6_counterexample :
    claimExtAllowed (".jpg".toList) = true ∧
    isAllowedFileType (".jpg".toList) = false := by
  decide



/-- Modelled from the spec, amended by the counterexample: there is an
extension only when the final path component has a dot that is neither
its leading character alone nor part of the component `..`; the extension
is the dot plus the substring after the last dot, lowercased. -/
def specExtensionAllowed (l : List Char) : Bool :=
  let b := basenameForExt l
  let afterRev := b.reverse.takeWhile (fun c => !(c == '.'))
  if afterRev.length == b.length then false
  else if b.length == afterRev.length + 1 then false
  else if b == ['.', '.'] then false
  else allowedExtensions.contains ('.' :: (afterRev.reverse.map Char.toLower))

theorem head_dropWhile_false (p : Char → Bool) (l : List Char) (x : Char)
    (d : List Char) (h : l.dropWhile p = x :: d) : p x = false := by
  induction l with
  | nil => simp [List.dropWhile] at h
  | cons c rest ih =>
    by_cases hc : p c = true
    · rw [List.dropWhile_cons_of_pos hc] at h
      exact ih h
    · rw [List.dropWhile_cons_of_neg hc] at h
      cases h
      simpa using hc

theorem drop_lastDot (b : List Char)
    (h : ¬ (b.reverse.takeWhile (fun c => !(c == '.'))).length = b.length) :
    b.drop (b.length - (b.reverse.takeWhile (fun c => !(c == '.'))).length - 1)
      = '.' :: (b.reverse.takeWhile (fun c => !(c == '.'))).reverse := by
  set p : Char → Bool := fun c => !(c == '.') with hp
  set a := b.reverse.takeWhile p with ha
  set d := b.reverse.dropWhile p with hd
  have hsplit : b.reverse = a ++ d :=
    (List.takeWhile_append_dropWhile p b.reverse).symm
  rcases hdc : d with _ | ⟨x, d2⟩
  · exfalso
    apply h
    have hra : b.reverse = a := by rw [hsplit, hdc, List.append_nil]
    calc a.length = b.reverse.length := by rw [hra]
    _ = b.length := by simp
  · have hx : p x = false := head_dropWhile_false p b.reverse x d2 (hd ▸ hdc)
    have hxd : x = '.' := by
      simp only [hp, Bool.not_eq_false'] at hx
      exact eq_of_beq hx
    subst hxd
    have hb : b = d2.reverse ++ '.' :: a.reverse := by
      have hc := congrArg List.reverse hsplit
      simp only [List.reverse_reverse, hdc, List.reverse_append,
        List.reverse_cons] at hc
      rw [hc]
      simp
    have hlb : b.length = d2.length + 1 + a.length := by
      rw [hb]
      simp only [List.length_append, List.length_reverse, List.length_cons]
      omega
    have hlen : b.length - a.length - 1 = d2.reverse.length := by
      rw [List.length_reverse]
      omega
    rw [hlen, hb]
    exact List.drop_left d2.reverse ('.' :: a.reverse)

/-- Claim C6 amended: the policy agrees everywhere with the spec-side
extension rule once dotfiles and `..` are counted as having no extension,
and extension case never changes the verdict. -/
theorem C6_amended_extension_policy :
    (∀ l : List Char, isAllowedFileType l = specExtensionAllowed l) ∧
    isAllowedFileType ("photo.JPG".toList) = true ∧
    isAllowedFileType ("photo.jpg".toList) = true ∧
    isAllowedFileType ("photo".toList) = false := by
  refine ⟨fun l => ?_, by decide, by decide, by decide⟩
  unfold isAllowedFileType extname specExtensionAllowed
  simp only []
  set b := basenameForExt l with hbb
  set ar := b.reverse.takeWhile (fun c => !(c == '.')) with har
  by_cases h1 : ar.length = b.length
  · have e1 : (ar.length == b.length) = true := by simp [h1]
    simp only [e1, if_true]
    decide
  · have e1 : (ar.length == b.length) = false := by simp [h1]
    simp only [e1, Bool.false_eq_true, if_false]
    by_cases h2 : b.length = ar.length + 1
    · have e2 : (b.length == ar.length + 1) = true := by simp [h2]
      simp only [e2, if_true]
      decide
    · have e2 : (b.length == ar.length + 1) = false := by simp [h2]
      simp only [e2, Bool.false_eq_true, if_false]
      by_cases h3 : b = ['.', '.']
      · have e3 : (b == ['.', '.']) = true := by simp [h3]
        simp only [e3, if_true]
        decide
      · have e3 : (b == ['.', '.']) = false := by simp [h3]
        simp only [e3, Bool.false_eq_true, if_false]
        rw [har, drop_lastDot b (har ▸ h1)]
        simp only [List.map_cons, List.map_reverse]
        have hdot : Char.toLower '.' = '.' := by decide
        rw [hdot]



theorem reserveLoop_spec (ex : List Char → Bool) (fullDir name : List Char) :
    ∀ (fuel k n : Nat), k ≤ n → n - k ≤ fuel →
    (∀ i, k ≤ i → i < n → ex (pathJoin fullDir (candidateName name i)) = true) →
    ex (pathJoin fullDir (candidateName name n)) = false →
    reserveLoop ex fullDir name fuel (candidateName name k) (k + 1) =
      candidateName name n := by
  intro fuel
  induction fuel with
  | zero =>
    intro k n hkn hfuel _ _
    have hk : k = n := by omega
    subst hk
    rfl
  | succ f ih =>
    intro k n hkn hfuel hbusy hfree
    by_cases hk : k = n
    · subst hk
      simp [reserveLoop, hfree]
    · have hkn2 : k < n := by omega
      have hbk := hbusy k (le_refl k) hkn2
      simp only [reserveLoop, hbk, if_true]
      have hcand : stemOf name ++ '_' :: (Nat.toDigits 10 (k + 1) ++ extname name)
          = candidateName name (k + 1) := rfl
      rw [hcand]
      exact ih (k + 1) n (by omega) (by omega)
        (fun i hi1 hi2 => hbusy i (by omega) hi2) hfree

/-- Claim C4: the reserved upload name is the client name itself when it
is free, and otherwise the first `{stem}_{n}{ext}` (n = 1, 2, ...) whose
full path does not exist, the candidates being probed sequentially. -/
theorem C4_collision_naming (ex : List Char → Bool)
    (fullDir name : List Char) (fuel n : Nat) (hn : n ≤ fuel)
    (hbusy : ∀ i, i < n → ex (pathJoin fullDir (candidateName name i)) = true)
    (hfree : ex (pathJoin fullDir (candidateName name n)) = false) :
    reserveFilename ex fullDir name fuel = candidateName name n := by
  unfold reserveFilename
  have h0 : candidateName name 0 = name := rfl
  rw [← h0]
  exact reserveLoop_spec ex fullDir name fuel 0 n (Nat.zero_le n)
    (by omega) (fun i _ hi => hbusy i hi) hfree

def exReport1 : List Char → Bool := fun p => p == "/d/report.pdf".toList

def exReport2 : List Char → Bool := fun p =>
  p == "/d/report.pdf".toList || p == "/d/report_1.pdf".toList

/-- Witness for C4: with `report.pdf` taken the reserved name is
`report_1.pdf`, and with `report.pdf` and `report_1.pdf` both taken it is
`report_2.pdf`. -/
theorem C4_collision_naming_witness :
    reserveFilename exReport1 ("/d".toList) ("report.pdf".toList) 1 =
      "report_1.pdf".toList ∧
    reserveFilename exReport2 ("/d".toList) ("report.pdf".toList) 2 =
      "report_2.pdf".toList := by
  constructor
  · have h := C4_collision_naming exReport1 ("/d".toList)
      ("report.pdf".toList) 1 1 (by decide)
      (fun i hi => by
        interval_cases i
        all_goals decide) (by decide)
    simpa using h
  · have h := C4_collision_naming exReport2 ("/d".toList)
      ("report.pdf".toList) 2 2 (by decide)
      (fun i hi => by
        interval_cases i
        all_goals decide) (by decide)
    simpa using h


end FileServer

namespace FileServer

/-- Claim C8: whenever the upload pipeline rejects — disallowed type or
name in the filter, insecure upload path, or the defensive re-check in the
filename callback — no directory creation has been performed; only an
accepted upload can have created its target directory, and the naming
step itself never mutates the filesystem. -/
theorem C8_rejection_no_mkdir (ex : List Char → Bool)
    (uploadsDir originalname uploadPath : List Char) (fuel : Nat)
    (e : UploadErr)
    (h : (uploadPipeline ex uploadsDir originalname uploadPath fuel).result =
      Except.error e) :
    (uploadPipeline ex uploadsDir originalname uploadPath fuel).createdDirs =
      [] := by
  unfold uploadPipeline at h ⊢
  by_cases h1 : nameChecksFail (sanitizeFilename originalname) = true
  · simp [h1]
  · have h1f : nameChecksFail (sanitizeFilename originalname) = false := by
      simpa using h1
    simp only [h1f, Bool.false_eq_true, if_false] at h ⊢
    by_cases h2 : (!(sanitizePath uploadPath).isEmpty &&
        !isSecurePath (sanitizePath uploadPath) uploadsDir) = true
    · simp [h2]
    · have h2f : (!(sanitizePath uploadPath).isEmpty &&
          !isSecurePath (sanitizePath uploadPath) uploadsDir) = false := by
        simpa using h2
      simp [h1f, h2f] at h

/-- Witness for C8: a rejected `.exe` upload performs no directory
creation. -/
theorem C8_rejection_no_mkdir_witness :
    (uploadPipeline (fun _ => false) ("/u".toList) ("x.exe".toList) [] 0).result
      = Except.error UploadErr.fileTypeNotAllowed ∧
    (uploadPipeline (fun _ => false) ("/u".toList) ("x.exe".toList) [] 0).createdDirs
      = [] := by
  constructor
  · rfl
  · exact C8_rejection_no_mkdir (fun _ => false) ("/u".toList) ("x.exe".toList)
      [] 0 UploadErr.fileTypeNotAllowed rfl

end FileServer

namespace FileServer

/-- Stat oracle for the C3 scenario: at the moment of the synchronous
stat pass, `a.txt` is a regular file and `b.txt` has already vanished. -/
def statAfterDeletion : List Char → Option FsStats := fun p =>
  if p == "/p/a.txt".toList then some ⟨false, true, 5⟩ else none

/-- Claim C3: with two enumerated children of which one vanishes between
enumeration and the per-entry stat, the listing does not return the
remaining entry — the unguarded `fs.statSync` throw aborts the whole
listing, contradicting the claimed tolerance. -/
theorem C3_vanished_child_aborts_listing :
    listDirectory statAfterDeletion statAfterDeletion
      ("/p".toList) [] ["a.txt".toList, "b.txt".toList] = none ∧
    statAfterDeletion (pathJoin ("/p".toList) ("a.txt".toList)) =
      some ⟨false, true, 5⟩ ∧
    statAfterDeletion (pathJoin ("/p".toList) ("b.txt".toList)) = none := by
  refine ⟨rfl, rfl, rfl⟩

end FileServer

namespace FileServer

theorem splitOnSlash_ne_nil (l : List Char) : splitOnSlash l ≠ [] := by
  cases l with
  | nil => simp [splitOnSlash]
  | cons c rest =>
    by_cases h : c = '/'
    · simp [splitOnSlash, h]
    · have hn : ¬ (c == '/') = true := by simp [h]
      simp only [splitOnSlash, if_neg hn]
      rcases hs : splitOnSlash rest with _ | ⟨s, ss⟩
      · simp
      · simp

theorem splitOnSlash_append (a b : List Char) :
    splitOnSlash (a ++ '/' :: b) = splitOnSlash a ++ splitOnSlash b := by
  induction a with
  | nil =>
    have hp : (('/' : Char) == '/') = true := by decide
    simp only [List.nil_append, splitOnSlash, if_pos hp, List.cons_append]
  | cons c a2 ih =>
    by_cases h : c = '/'
    · have hp : (c == '/') = true := by simp [h]
      simp only [List.cons_append, splitOnSlash, if_pos hp, List.cons_append]
      exact congrArg (fun x => [] :: x) ih
    · have hn : ¬ (c == '/') = true := by simp [h]
      simp only [List.cons_append, splitOnSlash, if_neg hn]
      rcases hs : splitOnSlash a2 with _ | ⟨s, ss⟩
      · exact absurd hs (splitOnSlash_ne_nil a2)
      · rw [show a2.append ('/' :: b) = a2 ++ '/' :: b from rfl, ih, hs]
        rfl

theorem joinSegs_cons_cons (s t : List Char) (ts : List (List Char)) :
    joinSegs (s :: t :: ts) = s ++ '/' :: joinSegs (t :: ts) := rfl

theorem joinSegs_split (l : List Char) : joinSegs (splitOnSlash l) = l := by
  induction l with
  | nil => rfl
  | cons c rest ih =>
    by_cases h : c = '/'
    · have hp : (c == '/') = true := by simp [h]
      simp only [splitOnSlash, if_pos hp]
      rcases hs : splitOnSlash rest with _ | ⟨s, ss⟩
      · exact absurd hs (splitOnSlash_ne_nil rest)
      · rw [joinSegs_cons_cons, ← hs, ih, h]
        rfl
    · have hn : ¬ (c == '/') = true := by simp [h]
      simp only [splitOnSlash, if_neg hn]
      rcases hs : splitOnSlash rest with _ | ⟨s, ss⟩
      · exact absurd hs (splitOnSlash_ne_nil rest)
      · rw [hs] at ih
        cases ss with
        | nil =>
          simp only [joinSegs] at ih ⊢
          rw [ih]
        | cons t ts =>
          rw [joinSegs_cons_cons] at ih
          rw [joinSegs_cons_cons, ← ih]
          rfl

theorem takeWhile_head (p : Char → Bool) (l : List Char) (x : Char)
    (t : List Char) (h : l.takeWhile p = x :: t) : l.head? = some x := by
  cases l with
  | nil => simp [List.takeWhile] at h
  | cons c rest =>
    by_cases hc : p c = true
    · rw [List.takeWhile_cons_of_pos hc] at h
      cases h
      rfl
    · rw [List.takeWhile_cons_of_neg hc] at h
      cases h

theorem splitOnSlash_head (l : List Char) :
    ∃ ss, splitOnSlash l = (l.takeWhile (fun c => !(c == '/'))) :: ss := by
  induction l with
  | nil => exact ⟨[], rfl⟩
  | cons c rest ih =>
    by_cases h : c = '/'
    · subst h
      refine ⟨splitOnSlash rest, ?_⟩
      simp [splitOnSlash]
    · obtain ⟨ss, hss⟩ := ih
      refine ⟨ss, ?_⟩
      have hn : ¬ (c == '/') = true := by simp [h]
      have hpred : (!(c == '/')) = true := by simp [h]
      simp [splitOnSlash, if_neg hn, hss, List.takeWhile_cons, hpred]
      exact h

theorem hasDotDot_cons_false (c : Char) (rest : List Char)
    (h : hasDotDot (c :: rest) = false) : hasDotDot rest = false := by
  cases rest with
  | nil => rfl
  | cons d t =>
    simp only [hasDotDot, Bool.or_eq_false_iff] at h
    exact h.2

theorem seg_no_dotdot (l : List Char) :
    hasDotDot l = false →
    ∀ seg ∈ splitOnSlash l, ¬ seg = ['.', '.'] := by
  induction l with
  | nil =>
    intro _ seg hseg
    simp [splitOnSlash] at hseg
    simp [hseg]
  | cons c rest ih =>
    intro h seg hseg
    have hr : hasDotDot rest = false := hasDotDot_cons_false c rest h
    by_cases hc : c = '/'
    · have hp : (c == '/') = true := by simp [hc]
      simp only [splitOnSlash, if_pos hp, List.mem_cons] at hseg
      rcases hseg with rfl | hseg
      · simp
      · exact ih hr seg hseg
    · have hn : ¬ (c == '/') = true := by simp [hc]
      rcases hs : splitOnSlash rest with _ | ⟨s, ss⟩
      · exact absurd hs (splitOnSlash_ne_nil rest)
      · simp only [splitOnSlash, if_neg hn, hs, List.mem_cons] at hseg
        rcases hseg with rfl | hseg
        · intro habs
          have hc1 : c = '.' := (List.cons.inj habs).1
          have hs1 : s = ['.'] := (List.cons.inj habs).2
          obtain ⟨ss2, hss2⟩ := splitOnSlash_head rest
          rw [hs] at hss2
          have hsx : rest.takeWhile (fun c => !(c == '/')) = ['.'] :=
            ((List.cons.inj hss2).1).symm.trans hs1
          have hhead : rest.head? = some '.' :=
            takeWhile_head _ rest '.' [] hsx
          cases rest with
          | nil => simp at hhead
          | cons d t =>
            have hd : d = '.' := by simpa using hhead
            rw [hc1, hd] at h
            simp [hasDotDot] at h
        · exact ih hr seg (hs ▸ List.mem_cons_of_mem s hseg)

end FileServer

namespace FileServer

theorem normAbs_push_clean (segs : List (List Char)) :
    cleanSegs segs = true →
    ∀ (stack tail : List (List Char)),
      normAbs stack (segs ++ tail) = normAbs (stack ++ segs) tail := by
  induction segs with
  | nil =>
    intro _ stack tail
    simp
  | cons seg rest ih =>
    intro hclean stack tail
    have hseg : cleanSeg seg = true := by
      simp only [cleanSegs, List.all_cons, Bool.and_eq_true] at hclean
      exact hclean.1
    have hrest : cleanSegs rest = true := by
      simp only [cleanSegs, List.all_cons, Bool.and_eq_true] at hclean
      exact hclean.2
    simp only [cleanSeg, Bool.and_eq_true, Bool.not_eq_true'] at hseg
    obtain ⟨⟨hne, hdot⟩, hdd⟩ := hseg
    simp only [List.cons_append, normAbs, hne, hdot, hdd, Bool.or_self,
      Bool.false_eq_true, if_false]
    have hih := ih hrest (stack ++ [seg]) tail
    simp only [List.append_assoc, List.singleton_append] at hih
    exact hih

theorem normAbs_no_pop (segs : List (List Char)) :
    (∀ seg ∈ segs, ¬ seg = ['.', '.']) →
    ∀ stack : List (List Char),
      ∃ extra, normAbs stack segs = stack ++ extra := by
  induction segs with
  | nil =>
    intro _ stack
    exact ⟨[], by simp [normAbs]⟩
  | cons seg rest ih =>
    intro h stack
    have hseg : ¬ seg = ['.', '.'] := h seg (by simp)
    have hrest : ∀ s ∈ rest, ¬ s = ['.', '.'] :=
      fun s hs => h s (List.mem_cons_of_mem seg hs)
    by_cases hskip : (seg.isEmpty || seg == ['.']) = true
    · simp only [normAbs, hskip, if_true]
      exact ih hrest stack
    · have hdd : (seg == ['.', '.']) = false := by simp [hseg]
      simp only [normAbs, hskip, Bool.false_eq_true, if_false, hdd]
      obtain ⟨extra, hx⟩ := ih hrest (stack ++ [seg])
      refine ⟨seg :: extra, ?_⟩
      rw [hx]
      simp

theorem joinSegs_append (a b : List (List Char)) (ha : a ≠ []) (hb : b ≠ []) :
    joinSegs (a ++ b) = joinSegs a ++ '/' :: joinSegs b := by
  induction a with
  | nil => exact absurd rfl ha
  | cons s a2 ih =>
    cases a2 with
    | nil =>
      cases b with
      | nil => exact absurd rfl hb
      | cons t ts => simp [joinSegs_cons_cons, joinSegs]
    | cons t ts =>
      have step : (s :: t :: ts) ++ b = s :: t :: (ts ++ b) := rfl
      rw [step, joinSegs_cons_cons s t (ts ++ b)]
      have hih := ih (by simp)
      rw [show (t :: ts) ++ b = t :: (ts ++ b) from rfl] at hih
      rw [hih, joinSegs_cons_cons s t ts]
      simp

theorem isPre_append (a b : List Char) : a.isPrefixOf (a ++ b) = true := by
  induction a with
  | nil => simp [List.isPrefixOf]
  | cons c a2 ih => simp [List.isPrefixOf, ih]

end FileServer

namespace FileServer

theorem normAbs_nil_cons (stack segs : List (List Char)) :
    normAbs stack ([] :: segs) = normAbs stack segs := by
  simp [normAbs]

theorem normAbs_clean_id (segs : List (List Char))
    (hclean : cleanSegs segs = true) : normAbs [] segs = segs := by
  have h := normAbs_push_clean segs hclean [] []
  simpa [normAbs] using h

theorem root_eq_renderAbs (rootSegs : List (List Char)) (root : List Char)
    (hroot : splitOnSlash root = [] :: rootSegs) (hne : rootSegs ≠ []) :
    root = renderAbs rootSegs := by
  have h := joinSegs_split root
  rw [hroot] at h
  cases rootSegs with
  | nil => exact absurd rfl hne
  | cons s ss =>
    rw [joinSegs_cons_cons] at h
    unfold renderAbs
    rw [← h]
    rfl

theorem pathJoin_segs (rootSegs : List (List Char)) (root s : List Char)
    (hroot : splitOnSlash root = [] :: rootSegs)
    (hclean : cleanSegs rootSegs = true)
    (hnd : hasDotDot s = false) :
    ∃ extra, normAbs [] (splitOnSlash (joinedRaw root s))
      = rootSegs ++ extra := by
  by_cases hs : s.isEmpty = true
  · refine ⟨[], ?_⟩
    rw [List.append_nil]
    unfold joinedRaw
    rw [if_pos hs, hroot, normAbs_nil_cons]
    exact normAbs_clean_id rootSegs hclean
  · unfold joinedRaw
    rw [if_neg hs, splitOnSlash_append root s, hroot]
    have h1 : ([] :: rootSegs) ++ splitOnSlash s
        = [] :: (rootSegs ++ splitOnSlash s) := rfl
    rw [h1, normAbs_nil_cons, normAbs_push_clean rootSegs hclean [] (splitOnSlash s)]
    simp only [List.nil_append]
    exact normAbs_no_pop (splitOnSlash s) (seg_no_dotdot s hnd) rootSegs

theorem insideRoot_render_append (rootSegs extra : List (List Char))
    (t : List Char) (hne : rootSegs ≠ []) (ht : t = [] ∨ t = ['/']) :
    insideRoot (renderAbs rootSegs) (renderAbs (rootSegs ++ extra) ++ t)
      = true := by
  cases extra with
  | nil =>
    rw [List.append_nil]
    rcases ht with rfl | rfl
    · simp [insideRoot]
    · unfold insideRoot
      have hp := isPre_append (renderAbs rootSegs ++ ['/']) []
      rw [List.append_nil] at hp
      simp [hp]
  | cons e ex =>
    unfold insideRoot renderAbs
    rw [joinSegs_append rootSegs (e :: ex) hne (by simp)]
    have hshape : ('/' :: (joinSegs rootSegs ++ '/' :: joinSegs (e :: ex))) ++ t
        = (('/' :: joinSegs rootSegs) ++ ['/']) ++ (joinSegs (e :: ex) ++ t) := by
      simp
    rw [hshape, isPre_append (('/' :: joinSegs rootSegs) ++ ['/'])
      (joinSegs (e :: ex) ++ t)]
    simp

/-- Claim C1: for any request string — in particular one containing `../`
or `..\` traversal or an absolute-path prefix — joining the storage root
with the sanitized path never leaves the root: the sanitizer removes
every `..`, a single pass cannot create a new one, and a `..`-free
relative path only descends. -/
theorem C1_join_confinement (rootSegs : List (List Char)) (root raw : List Char)
    (hroot : splitOnSlash root = [] :: rootSegs)
    (hclean : cleanSegs rootSegs = true) (hne : rootSegs ≠ [])
    (_htrav : hasDotDot raw = true ∨ raw.head? = some '/') :
    insideRoot root (pathJoin root (sanitizePath raw)) = true := by
  have hr : root = renderAbs rootSegs := root_eq_renderAbs rootSegs root hroot hne
  have hnd : hasDotDot (sanitizePath raw) = false := hasDotDot_sanitizePath raw
  obtain ⟨extra, hsegs⟩ :=
    pathJoin_segs rootSegs root (sanitizePath raw) hroot hclean hnd
  by_cases hcase : (endsWithSlash (joinedRaw root (sanitizePath raw)) &&
      !(normAbs [] (splitOnSlash (joinedRaw root (sanitizePath raw)))).isEmpty)
      = true
  · have hpj : pathJoin root (sanitizePath raw)
        = renderAbs (rootSegs ++ extra) ++ ['/'] := by
      unfold pathJoin
      rw [if_pos hcase, hsegs]
    rw [hpj, hr]
    exact insideRoot_render_append rootSegs extra ['/'] hne (Or.inr rfl)
  · have hpj : pathJoin root (sanitizePath raw)
        = renderAbs (rootSegs ++ extra) := by
      unfold pathJoin
      rw [if_neg hcase, hsegs]
    rw [hpj, hr]
    have h := insideRoot_render_append rootSegs extra [] hne (Or.inl rfl)
    rw [List.append_nil] at h
    exact h

/-- Witness for C1: a root `/p` and the traversal input `../x` — the
sanitized path is `/x` and the joined result `/p/x` stays inside `/p`. -/
theorem C1_join_confinement_witness :
    insideRoot ("/p".toList) (pathJoin ("/p".toList) (sanitizePath "../x".toList))
      = true :=
  C1_join_confinement [['p']] ("/p".toList) ("../x".toList)
    (by decide) (by decide) (by decide) (Or.inl (by decide))

/-- Claim C10: when sanitization yields the empty string the confinement
guard rejects nothing — the check is skipped — and the joined target is
exactly the storage root. -/
theorem C10_empty_path_is_root (rootSegs : List (List Char))
    (root raw : List Char)
    (hroot : splitOnSlash root = [] :: rootSegs)
    (hclean : cleanSegs rootSegs = true) (hne : rootSegs ≠ [])
    (hslash : endsWithSlash root = false)
    (hempty : sanitizePath raw = []) :
    traversalGuardRejects (sanitizePath raw) root = false ∧
    pathJoin root (sanitizePath raw) = root := by
  constructor
  · rw [hempty]
    simp [traversalGuardRejects]
  · rw [hempty]
    have hjr : joinedRaw root [] = root := by simp [joinedRaw]
    unfold pathJoin
    rw [hjr, hslash]
    simp only [Bool.false_and, Bool.false_eq_true, if_false]
    rw [hroot, normAbs_nil_cons, normAbs_clean_id rootSegs hclean]
    exact (root_eq_renderAbs rootSegs root hroot hne).symm

/-- Witness for C10: with root `/p` and request `..` the sanitized path
is empty, the guard passes, and the join returns the root itself. -/
theorem C10_empty_path_is_root_witness :
    traversalGuardRejects (sanitizePath "..".toList) ("/p".toList) = false ∧
    pathJoin ("/p".toList) (sanitizePath "..".toList) = "/p".toList :=
  C10_empty_path_is_root [['p']] ("/p".toList) ("..".toList)
    (by decide) (by decide) (by decide) (by decide) (by decide)

/-- Witness for the amended C5: a name with letters, a space, a dot and a
digit-free stem is accepted via the amended characterization. -/
theorem C5_amended_validator_charset_witness :
    isValidFilename ("ab c.txt".toList) = true :=
  (C5_amended_validator_charset ("ab c.txt".toList)).mpr (by decide)

end FileServer
